import Mathlib

/-!
Verification of the streaming stop-and-normalize post-processor of
`src/apps/llm_cli.cpp`.  Strings are modelled as lists of bytes
(`List Nat`), matching the byte-wise `std::string` operations of the
source.  Each definition mirrors one source function.
-/

namespace LlmCli

/-- Byte-wise first-occurrence substring search, mirroring
`std::string::find`: returns the smallest index at which `t` occurs in
`s`, or `none` (npos). -/
def findSub : List Nat → List Nat → Option Nat
  | [], t => if t.isPrefixOf [] then some 0 else none
  | c :: s', t =>
    if t.isPrefixOf (c :: s') then some 0
    else (findSub s' t).map (· + 1)

/-- Minimum of two optional offsets, where `none` plays the role of
`std::string::npos` (larger than everything). -/
def optMin : Option Nat → Option Nat → Option Nat
  | none, b => b
  | some a, none => some a
  | some a, some b => some (min a b)

/-- `ends_with_any` from llm_cli.cpp lines 921-931: does the accumulated
text end with any non-empty stop literal (byte-exact comparison)? -/
def ends_with_any (s : List Nat) (stops : List (List Nat)) : Bool :=
  stops.any fun t =>
    !t.isEmpty && (decide (t.length ≤ s.length) &&
      decide (s.drop (s.length - t.length) = t))

/-- The fold step of `trim_at_stop_first_occurrence` (lines 933-946):
`cut = min(cut, s.find(t))` for non-empty `t`. -/
def stepCut (s : List Nat) (cut : Option Nat) (t : List Nat) : Option Nat :=
  if t.isEmpty then cut
  else
    match findSub s t with
    | none => cut
    | some pos => optMin cut (some pos)

/-- The `cut` offset computed by `trim_at_stop_first_occurrence`. -/
def stopCut (s : List Nat) (stops : List (List Nat)) : Option Nat :=
  stops.foldl (stepCut s) none

/-- `trim_at_stop_first_occurrence` from llm_cli.cpp lines 933-946:
truncate at the earliest starting offset of any non-empty stop literal
found anywhere in the text. -/
def trim_at_stop_first_occurrence (s : List Nat) (stops : List (List Nat)) :
    List Nat :=
  match stopCut s stops with
  | none => s
  | some c => s.take c

/-- The sentence-terminal punctuation marks of
`find_first_sentence_end_zh` (line 951): the UTF-8 bytes of
`。`, `！`, `？`. -/
def sentence_end_marks : List (List Nat) :=
  [[227, 128, 130], [239, 188, 129], [239, 188, 159]]

/-- The `best` value computed by the loop of
`find_first_sentence_end_zh` (lines 952-961): the minimum, over the
terminal marks found in `s`, of (first occurrence + mark length). -/
def marksFold (s : List Nat) : Option Nat :=
  sentence_end_marks.foldl
    (fun best e =>
      match findSub s e with
      | none => best
      | some p => optMin best (some (p + e.length))) none

/-- `find_first_sentence_end_zh` from llm_cli.cpp lines 949-968: the
earliest cut point among (position after a terminal mark) and (position
of a newline byte). -/
def find_first_sentence_end_zh (s : List Nat) : Option Nat :=
  match findSub s [10] with
  | none => marksFold s
  | some nl => optMin (marksFold s) (some nl)

/-- Offset contributed by one terminal mark: one past its first
occurrence. -/
def markOcc (s e : List Nat) : Option Nat :=
  (findSub s e).map (· + e.length)

/-- The whitespace test of `normalize_one_sentence` (lines 978-979):
space, tab or newline byte. -/
def is_ws (c : Nat) : Bool := c == 32 || c == 9 || c == 10

/-- The substitution of lines 985-989: tab and newline become a space,
all other bytes unchanged. -/
def wsub (c : Nat) : Nat := if c == 10 || c == 9 then 32 else c

/-- The space-collapsing loop of lines 991-1007: a space is emitted
only when the previous input byte was not a space (`prev` is the
`prev_space` flag). -/
def collapseGo : Bool → List Nat → List Nat
  | _, [] => []
  | prev, c :: rest =>
    if c = 32 then
      if prev then collapseGo true rest
      else 32 :: collapseGo true rest
    else c :: collapseGo false rest

/-- Lines 974-976 of `normalize_one_sentence`: truncate at the first
sentence end when one is found (`s.resize(cut)`). -/
def cutAtSentenceEnd (s : List Nat) : List Nat :=
  match find_first_sentence_end_zh s with
  | none => s
  | some cut => s.take cut

/-- Lines 980-983 of `normalize_one_sentence`: strip leading and
trailing whitespace (space, tab, newline). -/
def stripWs (s : List Nat) : List Nat :=
  ((s.dropWhile is_ws).reverse.dropWhile is_ws).reverse

/-- `normalize_one_sentence` from llm_cli.cpp lines 970-1009: remove
carriage returns, truncate at the first sentence end, strip surrounding
whitespace, replace interior tab/newline by space, collapse space
runs. -/
def normalize_one_sentence (s0 : List Nat) : List Nat :=
  let s1 := s0.filter fun c => !(c == 13)
  let s2 := cutAtSentenceEnd s1
  let s4 := stripWs s2
  collapseGo false (s4.map wsub)

/-- The hard-coded anchor phrase of llm_cli.cpp line 1509: the ASCII
bytes of `LR(0)`. -/
def lr0_key : List Nat := [76, 82, 40, 48, 41]

/-- The anchor-repair block of llm_cli.cpp lines 1508-1516: if the
anchor occurs at a non-zero offset, drop everything before it and
re-normalize. -/
def anchor_repair (out : List Nat) : List Nat :=
  match findSub out lr0_key with
  | some p => if 0 < p then normalize_one_sentence (out.drop p) else out
  | none => out

/-- The post-loop processing of llm_cli.cpp lines 1505-1516: trim at
the first stop occurrence, normalize to one sentence, then apply the
anchor repair. -/
def postProcess (out : List Nat) (stops : List (List Nat)) : List Nat :=
  anchor_repair (normalize_one_sentence (trim_at_stop_first_occurrence out stops))

/-- The hard-coded stop literal list of llm_cli.cpp lines 1133-1140,
as byte strings. -/
def default_stops : List (List Nat) :=
  [[10, 72, 117, 109, 97, 110, 58],
   [10, 85, 115, 101, 114, 58],
   [10, 97, 115, 115, 105, 115, 116, 97, 110, 116, 58],
   [10, 65, 115, 115, 105, 115, 116, 97, 110, 116, 58],
   [60, 124, 101, 110, 100, 111, 102, 116, 101, 120, 116, 124, 62],
   [60, 47, 115, 62],
   [60, 124, 105, 109, 95, 101, 110, 100, 124, 62],
   [60, 124, 101, 111, 116, 95, 105, 100, 124, 62],
   [10, 10],
   [227, 128, 130],
   [239, 188, 129],
   [239, 188, 159],
   [10]]

/-- One step of the external inference engine, as seen by the
generation loop of llm_cli.cpp lines 1472-1503: either the sampled
token is end-of-sequence, or `llama_token_to_piece` fails (`nb <= 0`),
or a fragment is produced together with the success flag of the
subsequent `llama_decode` call. -/
inductive EngineStep where
  | eos : EngineStep
  | pieceFail : EngineStep
  | piece : List Nat → Bool → EngineStep

/-- Why the generation loop exited. -/
inductive StopKind where
  | budget : StopKind
  | eosStop : StopKind
  | decodeErr : StopKind
  | matchStop : StopKind
deriving DecidableEq

/-- The generation loop of llm_cli.cpp lines 1472-1503: at most `fuel`
iterations; each iteration samples a step from the engine, appends the
fragment, trims-and-breaks on a stop-sequence match, and breaks on
end-of-sequence or on either decode failure. -/
def genLoop (eng : Nat → EngineStep) (stops : List (List Nat)) :
    Nat → Nat → List Nat → List Nat × StopKind
  | 0, _, out => (out, StopKind.budget)
  | fuel + 1, i, out =>
    match eng i with
    | EngineStep.eos => (out, StopKind.eosStop)
    | EngineStep.pieceFail => (out, StopKind.decodeErr)
    | EngineStep.piece frag ok =>
      let out2 := out ++ frag
      if ends_with_any out2 stops then
        (trim_at_stop_first_occurrence out2 stops, StopKind.matchStop)
      else if ok then genLoop eng stops fuel (i + 1) out2
      else (out2, StopKind.decodeErr)

/-- The loop entered with the command-line `n_predict` value (an `int`
in the source: `for (int i = 0; i < n_predict; ++i)` runs
`max n_predict 0` iterations). -/
def genLoopRun (eng : Nat → EngineStep) (stops : List (List Nat))
    (n_predict : Int) : List Nat × StopKind :=
  genLoop eng stops n_predict.toNat 0 []

/-- The observable result of the generation phase of `main`
(llm_cli.cpp lines 1472-1526), reached once the `out.reserve` call of
line 1470 has succeeded: the process exit code — the unconditional
`return 0` of line 1526 — together with the printed output string.
The reason the loop stopped is not inspected anywhere after the
loop. -/
def mainResult (eng : Nat → EngineStep) (stops : List (List Nat))
    (n_predict : Int) : Nat × List Nat :=
  (0, postProcess (genLoopRun eng stops n_predict).1 stops)

/-- Line 1470 of llm_cli.cpp, `out.reserve((size_t)n_predict * 6)`,
runs before the generation loop.  `n_predict` is a 32-bit `int`; on a
64-bit platform a negative value is sign-extended by the `size_t` cast
to at least `2^64 - 2^31`, so the requested capacity wraps to at least
`2^64 - 6 * 2^31`, which exceeds `std::string::max_size()` (bounded by
`PTRDIFF_MAX < 2^63`), and `reserve` throws `std::length_error`.  For
`n_predict >= 0` the request is at most `6 * (2^31 - 1)` bytes and
succeeds.  So the throw happens exactly for negative `n_predict`. -/
def reserve_throws (n_predict : Int) : Bool :=
  decide (n_predict < 0)

/-- The observable outcome of `main` from line 1470 on: `none` when
the pre-loop `reserve` throws `std::length_error` — the exception is
uncaught, so the process aborts before any loop iteration and before
any output is printed — and otherwise the generation-phase result
`mainResult`. -/
def mainRun (eng : Nat → EngineStep) (stops : List (List Nat))
    (n_predict : Int) : Option (Nat × List Nat) :=
  if reserve_throws n_predict then none
  else some (mainResult eng stops n_predict)

/-- Abstract running minimum of `f` over a list, with `none` as
identity; the shape shared by the folds in
`trim_at_stop_first_occurrence` and `find_first_sentence_end_zh`. -/
def ofoldMin (f : α → Option Nat) : List α → Option Nat
  | [] => none
  | a :: l => optMin (f a) (ofoldMin f l)

/-- First occurrence offset contributed by one stop literal: `none`
for empty literals (which the source skips). -/
def stopOcc (s t : List Nat) : Option Nat :=
  if t.isEmpty then none else findSub s t

/-- Some non-empty configured stop literal occurs in `s` at offset `j`. -/
def stopsOccurAt (s : List Nat) (stops : List (List Nat)) (j : Nat) : Prop :=
  ∃ t, t ∈ stops ∧ t ≠ [] ∧ t <+: s.drop j

/-- A concrete engine run: one fragment `"a  b"` (two interior spaces),
then `llama_token_to_piece` fails on the next iteration. -/
def engineBad : Nat → EngineStep
  | 0 => EngineStep.piece [97, 32, 32, 98] true
  | _ => EngineStep.pieceFail

/-- A concrete engine run: one fragment `"a b"`, then a clean
end-of-sequence token. -/
def engineClean : Nat → EngineStep
  | 0 => EngineStep.piece [97, 32, 98] true
  | _ => EngineStep.eos

/-- A concrete engine that would stream fragments forever. -/
def engineLoops : Nat → EngineStep :=
  fun _ => EngineStep.piece [104, 105] true

/-- UTF-8 bytes of the spec's anchor-repair example input
`"嗯，好的。LR(0)项目集：一种状态集合。"`. -/
def zhInputC2 : List Nat :=
  [229, 151, 175, 239, 188, 140, 229, 165, 189, 231, 154, 132,
   227, 128, 130, 76, 82, 40, 48, 41, 233, 161, 185, 231, 155, 174,
   233, 155, 134, 239, 188, 154, 228, 184, 128, 231, 167, 141,
   231, 138, 182, 230, 128, 129, 233, 155, 134, 229, 144, 136,
   227, 128, 130]

/-- UTF-8 bytes of the output the spec claims for that example:
`"LR(0)项目集：一种状态集合。"`. -/
def zhClaimedC2 : List Nat :=
  [76, 82, 40, 48, 41, 233, 161, 185, 231, 155, 174, 233, 155, 134,
   239, 188, 154, 228, 184, 128, 231, 167, 141, 231, 138, 182,
   230, 128, 129, 233, 155, 134, 229, 144, 136, 227, 128, 130]

/-- UTF-8 bytes of `"嗯，好的"`, the output the implementation actually
produces for that example. -/
def zhActualC2 : List Nat :=
  [229, 151, 175, 239, 188, 140, 229, 165, 189, 231, 154, 132]

/-! ## Properties of `findSub` -/

theorem findSub_some (s t : List Nat) (p : Nat) (h : findSub s t = some p) :
    t <+: s.drop p ∧ ∀ j, j < p → ¬ t <+: s.drop j := by
  induction s generalizing p with
  | nil =>
    rw [findSub] at h
    split at h
    · rename_i hpre
      cases h
      exact ⟨ List.isPrefixOf_iff_prefix.mp hpre,
        fun j hj => absurd hj (Nat.not_lt_zero j)⟩
    · cases h
  | cons c s' ih =>
    rw [findSub] at h
    split at h
    · rename_i hpre
      cases h
      exact ⟨ List.isPrefixOf_iff_prefix.mp hpre,
        fun j hj => absurd hj (Nat.not_lt_zero j)⟩
    · rename_i hpre
      cases hq : findSub s' t with
      | none => rw [hq] at h; cases h
      | some q =>
        rw [hq] at h
        simp only [Option.map_some'] at h
        obtain ⟨hpref, hmin⟩ := ih q hq
        cases h
        refine ⟨by rwa [List.drop_succ_cons], ?_⟩
        intro j hj
        cases j with
        | zero =>
          intro hc
          exact hpre ( List.isPrefixOf_iff_prefix.mpr (by simpa using hc))
        | succ k =>
          rw [List.drop_succ_cons]
          exact hmin k (Nat.lt_of_succ_lt_succ hj)

theorem findSub_none (s t : List Nat) (h : findSub s t = none) :
    ∀ i, ¬ t <+: s.drop i := by
  induction s with
  | nil =>
    rw [findSub] at h
    split at h
    · cases h
    · rename_i hpre
      intro i hc
      rw [List.drop_nil] at hc
      exact hpre ( List.isPrefixOf_iff_prefix.mpr hc)
  | cons c s' ih =>
    rw [findSub] at h
    split at h
    · cases h
    · rename_i hpre
      have h' : findSub s' t = none := by
        cases hq : findSub s' t with
        | none => rfl
        | some q => rw [hq] at h; cases h
      intro i
      cases i with
      | zero =>
        intro hc
        exact hpre ( List.isPrefixOf_iff_prefix.mpr (by simpa using hc))
      | succ k =>
        rw [List.drop_succ_cons]
        exact ih h' k

theorem findSub_complete (s t : List Nat) (i : Nat) (h : t <+: s.drop i) :
    ∃ p, findSub s t = some p ∧ p ≤ i := by
  cases hf : findSub s t with
  | none => exact absurd h (findSub_none s t hf i)
  | some p =>
    refine ⟨p, rfl, ?_⟩
    by_contra hlt
    push_neg at hlt
    exact (findSub_some s t p hf).2 i hlt h

theorem findSub_le_length (s t : List Nat) (p : Nat) (h : findSub s t = some p) :
    p ≤ s.length := by
  induction s generalizing p with
  | nil =>
    rw [findSub] at h
    split at h
    · cases h; exact Nat.le_refl 0
    · cases h
  | cons c s' ih =>
    rw [findSub] at h
    split at h
    · cases h; exact Nat.zero_le _
    · cases hq : findSub s' t with
      | none => rw [hq] at h; cases h
      | some q =>
        rw [hq] at h
        simp only [Option.map_some'] at h
        cases h
        exact Nat.succ_le_succ (ih q hq)

theorem findSub_add_length_le (s t : List Nat) (p : Nat)
    (h : findSub s t = some p) : p + t.length ≤ s.length := by
  have h1 : p ≤ s.length := findSub_le_length s t p h
  have h2 : t.length ≤ (s.drop p).length :=
    List.IsPrefix.length_le (findSub_some s t p h).1
  rw [List.length_drop] at h2
  omega

/-! ## Properties of `optMin` and the running-minimum folds -/

theorem optMin_none_right (a : Option Nat) : optMin a none = a := by
  cases a <;> rfl

theorem optMin_assoc (a b c : Option Nat) :
    optMin (optMin a b) c = optMin a (optMin b c) := by
  cases a <;> cases b <;> cases c <;> simp [optMin, Nat.min_assoc]

theorem foldl_optMin_eq (f : α → Option Nat) (l : List α) (acc : Option Nat) :
    l.foldl (fun b a => optMin b (f a)) acc = optMin acc (ofoldMin f l) := by
  induction l generalizing acc with
  | nil => rw [ofoldMin, optMin_none_right]; rfl
  | cons a l ih =>
    rw [List.foldl_cons, ih (optMin acc (f a)), ofoldMin, optMin_assoc]

theorem ofoldMin_none_iff (f : α → Option Nat) (l : List α) :
    ofoldMin f l = none ↔ ∀ a ∈ l, f a = none := by
  induction l with
  | nil => simp [ofoldMin]
  | cons a l ih =>
    rw [ofoldMin]
    cases hfa : f a with
    | none =>
      simp only [optMin, ih, List.mem_cons]
      constructor
      · rintro h b (rfl | hb)
        · exact hfa
        · exact h b hb
      · intro h b hb
        exact h b (Or.inr hb)
    | some v =>
      have : optMin (some v) (ofoldMin f l) ≠ none := by
        cases ofoldMin f l <;> simp [optMin]
      simp only [this, false_iff]
      intro h
      rw [h a (List.mem_cons_self a l)] at hfa
      cases hfa

theorem ofoldMin_some (f : α → Option Nat) (l : List α) (c : Nat)
    (h : ofoldMin f l = some c) :
    (∃ a ∈ l, f a = some c) ∧ ∀ a ∈ l, ∀ p, f a = some p → c ≤ p := by
  induction l generalizing c with
  | nil => rw [ofoldMin] at h; cases h
  | cons a l ih =>
    rw [ofoldMin] at h
    cases hfa : f a with
    | none =>
      rw [hfa] at h
      have h' : ofoldMin f l = some c := h
      obtain ⟨⟨b, hb, hfb⟩, hmin⟩ := ih c h'
      refine ⟨⟨b, List.mem_cons_of_mem a hb, hfb⟩, ?_⟩
      intro x hx p hp
      rcases List.mem_cons.mp hx with rfl | hx'
      · rw [hfa] at hp; cases hp
      · exact hmin x hx' p hp
    | some v =>
      rw [hfa] at h
      cases hrest : ofoldMin f l with
      | none =>
        rw [hrest] at h
        rw [optMin_none_right] at h
        cases h
        refine ⟨⟨a, List.mem_cons_self a l, hfa⟩, ?_⟩
        intro x hx p hp
        rcases List.mem_cons.mp hx with rfl | hx'
        · rw [hfa] at hp; cases hp; exact Nat.le_refl _
        · rw [(ofoldMin_none_iff f l).mp hrest x hx'] at hp; cases hp
      | some w =>
        rw [hrest] at h
        obtain ⟨⟨b, hb, hfb⟩, hmin⟩ := ih w hrest
        have hc : c = min v w := by
          simpa [optMin] using h.symm
        subst hc
        by_cases hvw : v ≤ w
        · rw [Nat.min_eq_left hvw]
          refine ⟨⟨a, List.mem_cons_self a l, hfa⟩, ?_⟩
          intro x hx p hp
          rcases List.mem_cons.mp hx with rfl | hx'
          · rw [hfa] at hp; cases hp; exact Nat.le_refl _
          · exact Nat.le_trans hvw (hmin x hx' p hp)
        · push_neg at hvw
          rw [Nat.min_eq_right (Nat.le_of_lt hvw)]
          refine ⟨⟨b, List.mem_cons_of_mem a hb, hfb⟩, ?_⟩
          intro x hx p hp
          rcases List.mem_cons.mp hx with rfl | hx'
          · rw [hfa] at hp; cases hp; exact Nat.le_of_lt hvw
          · exact hmin x hx' p hp

theorem ofoldMin_le (f : α → Option Nat) (l : List α) (a : α) (ha : a ∈ l)
    (p : Nat) (hp : f a = some p) : ∃ c, ofoldMin f l = some c ∧ c ≤ p := by
  cases hc : ofoldMin f l with
  | none =>
    rw [(ofoldMin_none_iff f l).mp hc a ha] at hp
    cases hp
  | some c => exact ⟨c, rfl, (ofoldMin_some f l c hc).2 a ha p hp⟩

/-! ## The stop-point trimmer -/

theorem stepCut_eq (s : List Nat) (acc : Option Nat) (t : List Nat) :
    stepCut s acc t = optMin acc (stopOcc s t) := by
  rw [stepCut, stopOcc]
  split
  · rw [optMin_none_right]
  · cases hf : findSub s t
    · rw [optMin_none_right]
    · rfl

theorem stopCut_eq (s : List Nat) (stops : List (List Nat)) :
    stopCut s stops = ofoldMin (stopOcc s) stops := by
  have hstep : stepCut s = fun acc t => optMin acc (stopOcc s t) := by
    funext acc t
    exact stepCut_eq s acc t
  rw [stopCut, hstep, foldl_optMin_eq]
  rfl

theorem stopOcc_some (s t : List Nat) (p : Nat) (h : stopOcc s t = some p) :
    t ≠ [] ∧ findSub s t = some p := by
  rw [stopOcc] at h
  split at h
  · cases h
  · rename_i he
    exact ⟨by simpa using he, h⟩

theorem stopCut_none_iff (s : List Nat) (stops : List (List Nat)) :
    stopCut s stops = none ↔ ∀ j, ¬ stopsOccurAt s stops j := by
  rw [stopCut_eq, ofoldMin_none_iff]
  constructor
  · rintro h j ⟨t, ht, htne, hpre⟩
    have := h t ht
    rw [stopOcc] at this
    split at this
    · rename_i he
      exact htne (by simpa using he)
    · exact findSub_none s t this j hpre
  · intro h t ht
    rw [stopOcc]
    split
    · rfl
    · rename_i he
      cases hf : findSub s t with
      | none => rfl
      | some p =>
        exact absurd ⟨t, ht, by simpa using he, (findSub_some s t p hf).1⟩ (h p)

theorem stopCut_some_spec (s : List Nat) (stops : List (List Nat)) (c : Nat)
    (h : stopCut s stops = some c) :
    stopsOccurAt s stops c ∧ ∀ j, j < c → ¬ stopsOccurAt s stops j := by
  rw [stopCut_eq] at h
  obtain ⟨⟨t, ht, hocc⟩, hmin⟩ := ofoldMin_some _ _ _ h
  obtain ⟨htne, hfind⟩ := stopOcc_some s t c hocc
  refine ⟨⟨t, ht, htne, (findSub_some s t c hfind).1⟩, ?_⟩
  rintro j hj ⟨u, hu, hune, hpre⟩
  obtain ⟨p, hp, hple⟩ := findSub_complete s u j hpre
  have hocc' : stopOcc s u = some p := by
    rw [stopOcc]
    split
    · rename_i he
      exact absurd (by simpa using he) hune
    · exact hp
  exact Nat.lt_irrefl j
    (Nat.lt_of_lt_of_le hj (Nat.le_trans (hmin u hu p hocc') hple))

theorem trim_of_stopCut_none (s : List Nat) (stops : List (List Nat))
    (h : stopCut s stops = none) : trim_at_stop_first_occurrence s stops = s := by
  rw [trim_at_stop_first_occurrence, h]

theorem trim_of_stopCut_some (s : List Nat) (stops : List (List Nat)) (c : Nat)
    (h : stopCut s stops = some c) :
    trim_at_stop_first_occurrence s stops = s.take c := by
  rw [trim_at_stop_first_occurrence, h]

/-- C3: for every string and stop set, the trimmer leaves the string
unchanged when no non-empty stop literal occurs anywhere in it, and
otherwise truncates it at the smallest starting offset at which any
non-empty stop literal occurs (occurrences anywhere, not only as a
suffix); in particular with stop literals {"X","YZ"} the text
"aaXbbYZcc" trims to "aa". -/
theorem C3_trim_at_earliest_occurrence (s : List Nat) (stops : List (List Nat)) :
    ((∀ j, ¬ stopsOccurAt s stops j) →
      trim_at_stop_first_occurrence s stops = s) ∧
    (∀ c, stopsOccurAt s stops c → (∀ j, j < c → ¬ stopsOccurAt s stops j) →
      trim_at_stop_first_occurrence s stops = s.take c) ∧
    trim_at_stop_first_occurrence [97, 97, 88, 98, 98, 89, 90, 99, 99]
      [[88], [89, 90]] = [97, 97] := by
  refine ⟨?_, ?_, by decide⟩
  · intro h
    exact trim_of_stopCut_none s stops ((stopCut_none_iff s stops).mpr h)
  · intro c hocc hmin
    cases hc : stopCut s stops with
    | none => exact absurd hocc ((stopCut_none_iff s stops).mp hc c)
    | some c' =>
      obtain ⟨hocc', hmin'⟩ := stopCut_some_spec s stops c' hc
      have h1 : ¬ c' < c := fun hlt => hmin c' hlt hocc'
      have h2 : ¬ c < c' := fun hlt => hmin' c hlt hocc
      have : c' = c := by omega
      subst this
      exact trim_of_stopCut_some s stops c' hc

/-- Witness for C3 at a concrete input: text "X" with stop set {"X"}
trims at offset 0. -/
theorem C3_trim_at_earliest_occurrence_witness :
    trim_at_stop_first_occurrence [88] [[88]] = List.take 0 [88] := by
  refine (C3_trim_at_earliest_occurrence [88] [[88]]).2.1 0
    ⟨[88], ?_, ?_, ?_⟩ ?_
  · simp
  · simp
  · simp
  · intro j hj
    exact absurd hj (Nat.not_lt_zero j)

/-- C4: for every string and every fixed stop set, the stop-point
trimmer is idempotent: trimming an already-trimmed string changes
nothing. -/
theorem C4_trim_idempotent (s : List Nat) (stops : List (List Nat)) :
    trim_at_stop_first_occurrence
        (trim_at_stop_first_occurrence s stops) stops =
      trim_at_stop_first_occurrence s stops := by
  cases hc : stopCut s stops with
  | none =>
    rw [trim_of_stopCut_none s stops hc]
    exact trim_of_stopCut_none s stops hc
  | some c =>
    rw [trim_of_stopCut_some s stops c hc]
    have h2 : stopCut (s.take c) stops = none := by
      rw [stopCut_none_iff]
      rintro j ⟨t, ht, htne, hpre⟩
      rw [List.drop_take] at hpre
      obtain ⟨hps, hlen⟩ := List.prefix_take_iff.mp hpre
      have htpos : 0 < t.length := List.length_pos.mpr htne
      have hjc : j < c := by omega
      exact (stopCut_some_spec s stops c hc).2 j hjc ⟨t, ht, htne, hps⟩
    exact trim_of_stopCut_none _ _ h2

/-- C5: the stop-sequence matcher returns true exactly when some
non-empty literal of the stop set is byte-for-byte a suffix of the
accumulated text; empty literals never cause a match. -/
theorem C5_ends_with_any_iff (s : List Nat) (stops : List (List Nat)) :
    ends_with_any s stops = true ↔ ∃ t, t ∈ stops ∧ t ≠ [] ∧ t <:+ s := by
  rw [ends_with_any, List.any_eq_true]
  constructor
  · rintro ⟨t, ht, hp⟩
    simp only [Bool.and_eq_true, Bool.not_eq_true', decide_eq_true_eq] at hp
    obtain ⟨hne, hlen, heq⟩ := hp
    refine ⟨t, ht, ?_, ?_⟩
    · intro h
      subst h
      simp [List.isEmpty] at hne
    · rw [List.suffix_iff_eq_drop]
      exact heq.symm
  · rintro ⟨t, ht, hne, hsuf⟩
    refine ⟨t, ht, ?_⟩
    simp only [Bool.and_eq_true, Bool.not_eq_true', decide_eq_true_eq]
    refine ⟨?_, ?_, ?_⟩
    · cases t with
      | nil => exact absurd rfl hne
      | cons a l => rfl
    · exact List.IsSuffix.length_le hsuf
    · exact (List.suffix_iff_eq_drop.mp hsuf).symm

/-! ## Structural facts about the normalizer stages -/

theorem normalize_eq (s0 : List Nat) :
    normalize_one_sentence s0 =
      collapseGo false
        ((stripWs (cutAtSentenceEnd (s0.filter fun c => !(c == 13)))).map wsub) :=
  rfl

theorem cutAtSentenceEnd_pre (s : List Nat) : cutAtSentenceEnd s <+: s := by
  rw [cutAtSentenceEnd]
  cases find_first_sentence_end_zh s with
  | none => exact List.prefix_refl s
  | some cut => exact List.take_prefix cut s

theorem stripWs_pre (s : List Nat) : stripWs s <+: s.dropWhile is_ws := by
  rw [stripWs]
  apply List.reverse_suffix.mp
  rw [List.reverse_reverse]
  exact List.dropWhile_suffix is_ws

theorem stripWs_sublist (s : List Nat) : (stripWs s).Sublist s :=
  List.Sublist.trans (List.IsPrefix.sublist (stripWs_pre s))
    (List.IsSuffix.sublist (List.dropWhile_suffix is_ws))

theorem head?_dropWhile (p : Nat → Bool) (l : List Nat) (x : Nat)
    (h : (l.dropWhile p).head? = some x) : p x = false := by
  induction l with
  | nil => cases h
  | cons c rest ih =>
    rw [List.dropWhile_cons] at h
    split at h
    · exact ih h
    · rename_i hc
      cases h
      exact Bool.eq_false_iff.mpr hc

theorem head?_of_pre (l₁ l₂ : List Nat) (x : Nat) (h : l₁ <+: l₂)
    (hx : l₁.head? = some x) : l₂.head? = some x := by
  obtain ⟨t, ht⟩ := h
  cases l₁ with
  | nil => cases hx
  | cons a l =>
    cases hx
    rw [← ht]
    rfl

theorem stripWs_head? (s : List Nat) (x : Nat)
    (h : (stripWs s).head? = some x) : is_ws x = false :=
  head?_dropWhile is_ws s x (head?_of_pre _ _ x (stripWs_pre s) h)

theorem stripWs_getLast? (s : List Nat) (x : Nat)
    (h : (stripWs s).getLast? = some x) : is_ws x = false := by
  rw [stripWs, List.getLast?_reverse] at h
  exact head?_dropWhile is_ws _ x h

/-! ## Structural facts about the space-collapsing loop -/

theorem collapseGo_cons (b : Bool) (c : Nat) (rest : List Nat) :
    collapseGo b (c :: rest) =
      if c = 32 then
        if b then collapseGo true rest else 32 :: collapseGo true rest
      else c :: collapseGo false rest := rfl

theorem collapseGo_sp_true (rest : List Nat) :
    collapseGo true (32 :: rest) = collapseGo true rest := by
  rw [collapseGo_cons, if_pos rfl, if_pos rfl]

theorem collapseGo_sp_false (rest : List Nat) :
    collapseGo false (32 :: rest) = 32 :: collapseGo true rest := by
  rw [collapseGo_cons, if_pos rfl, if_neg Bool.false_ne_true]

theorem collapseGo_ne (b : Bool) (c : Nat) (rest : List Nat) (hc : c ≠ 32) :
    collapseGo b (c :: rest) = c :: collapseGo false rest := by
  rw [collapseGo_cons, if_neg hc]

theorem collapseGo_sublist (b : Bool) (l : List Nat) :
    (collapseGo b l).Sublist l := by
  induction l generalizing b with
  | nil => exact List.Sublist.refl []
  | cons c rest ih =>
    by_cases hc : c = 32
    · subst hc
      cases b with
      | true =>
        rw [collapseGo_sp_true]
        exact List.Sublist.cons 32 (ih true)
      | false =>
        rw [collapseGo_sp_false]
        exact List.Sublist.cons₂ 32 (ih true)
    · rw [collapseGo_ne b c rest hc]
      exact List.Sublist.cons₂ c (ih false)

theorem collapseGo_true_head? (l : List Nat) (x : Nat)
    (h : (collapseGo true l).head? = some x) : x ≠ 32 := by
  induction l with
  | nil => cases h
  | cons c rest ih =>
    by_cases hc : c = 32
    · subst hc
      rw [collapseGo_sp_true] at h
      exact ih h
    · rw [collapseGo_ne true c rest hc] at h
      cases h
      exact hc

theorem collapseGo_false_head? (l : List Nat) :
    (collapseGo false l).head? = l.head? := by
  cases l with
  | nil => rfl
  | cons c rest =>
    by_cases hc : c = 32
    · subst hc
      rw [collapseGo_sp_false]
      rfl
    · rw [collapseGo_ne false c rest hc]
      rfl

theorem collapseGo_chain (l : List Nat) (b : Bool) :
    List.Chain' (fun x y => ¬(x = 32 ∧ y = 32)) (collapseGo b l) := by
  induction l generalizing b with
  | nil => exact List.chain'_nil
  | cons c rest ih =>
    by_cases hc : c = 32
    · subst hc
      cases b with
      | true =>
        rw [collapseGo_sp_true]
        exact ih true
      | false =>
        rw [collapseGo_sp_false, List.chain'_cons']
        refine ⟨?_, ih true⟩
        intro y hy hcon
        exact collapseGo_true_head? rest y hy hcon.2
    · rw [collapseGo_ne b c rest hc, List.chain'_cons']
      refine ⟨?_, ih false⟩
      intro y _ hcon
      exact hc hcon.1

theorem collapseGo_getLast? (l : List Nat) (b : Bool)
    (h : l.getLast? ≠ some 32) :
    (collapseGo b l).getLast? = l.getLast? := by
  induction l generalizing b with
  | nil => rfl
  | cons c rest ih =>
    cases rest with
    | nil =>
      have hc : c ≠ 32 := by
        intro he
        exact h (by rw [he]; rfl)
      rw [collapseGo_ne b c [] hc]
      rfl
    | cons d rest' =>
      have h' : (d :: rest').getLast? ≠ some 32 := by
        rwa [List.getLast?_cons_cons] at h
      have key : ∀ b', (collapseGo b' (d :: rest')).getLast? =
          (d :: rest').getLast? := fun b' => ih b' h'
      have knn : ∀ b', collapseGo b' (d :: rest') ≠ [] := by
        intro b' hnil
        have h3 := key b'
        rw [hnil] at h3
        have h2 : (d :: rest').getLast? = none := h3.symm
        rw [List.getLast?_eq_none_iff] at h2
        cases h2
      have last_cons : ∀ (a : Nat) (X : List Nat), X ≠ [] →
          (a :: X).getLast? = X.getLast? := by
        intro a X hX
        cases X with
        | nil => exact absurd rfl hX
        | cons u v => exact List.getLast?_cons_cons
      by_cases hc : c = 32
      · subst hc
        cases b with
        | true =>
          rw [collapseGo_sp_true, key true, List.getLast?_cons_cons]
        | false =>
          rw [collapseGo_sp_false, last_cons 32 _ (knn true), key true,
            List.getLast?_cons_cons]
      · rw [collapseGo_ne b c _ hc, last_cons c _ (knn false), key false,
          List.getLast?_cons_cons]

theorem collapseGo_eq_self (l : List Nat)
    (h : List.Chain' (fun x y => ¬(x = 32 ∧ y = 32)) l) :
    collapseGo false l = l ∧
      (l.head? ≠ some 32 → collapseGo true l = l) := by
  induction l with
  | nil => exact ⟨rfl, fun _ => rfl⟩
  | cons c rest ih =>
    rw [List.chain'_cons'] at h
    obtain ⟨hR, hrest⟩ := h
    obtain ⟨ih1, ih2⟩ := ih hrest
    by_cases hc : c = 32
    · subst hc
      have hhd : rest.head? ≠ some 32 := by
        intro he
        exact hR 32 he ⟨rfl, rfl⟩
      constructor
      · rw [collapseGo_sp_false, ih2 hhd]
      · intro hh
        exact absurd rfl hh
    · constructor
      · rw [collapseGo_ne false c rest hc, ih1]
      · intro _
        rw [collapseGo_ne true c rest hc, ih1]

/-! ## C6 and C7: forbidden bytes and non-expansion -/

theorem normalize_sublist_wsub (s : List Nat) :
    (normalize_one_sentence s).Sublist
      ((s.filter fun c => !(c == 13)).map wsub) := by
  rw [normalize_eq]
  refine List.Sublist.trans (collapseGo_sublist false _) ?_
  refine List.Sublist.map wsub ?_
  exact List.Sublist.trans (stripWs_sublist _)
    (List.IsPrefix.sublist (cutAtSentenceEnd_pre _))

theorem mem_normalize (s : List Nat) (c : Nat)
    (h : c ∈ normalize_one_sentence s) : c ≠ 13 ∧ c ≠ 9 ∧ c ≠ 10 := by
  have h1 : c ∈ (s.filter fun c => !(c == 13)).map wsub :=
    (normalize_sublist_wsub s).subset h
  obtain ⟨a, ha, hac⟩ := List.mem_map.mp h1
  have ha13 : ¬(a == 13) = true := by
    have := (List.mem_filter.mp ha).2
    simpa using this
  rw [wsub] at hac
  split at hac
  · subst hac
    exact ⟨by decide, by decide, by decide⟩
  · rename_i hcond
    subst hac
    have h10 : ¬(a = 10 ∨ a = 9) := by
      intro hor
      apply hcond
      rcases hor with h | h <;> simp [h]
    push_neg at h10
    exact ⟨by simpa using ha13, h10.2, h10.1⟩

/-- C6: the sentence normalizer's output contains no carriage-return
byte, no tab byte and no newline byte anywhere, and no substring of two
or more consecutive spaces. -/
theorem C6_normalize_no_forbidden_bytes (s : List Nat) :
    13 ∉ normalize_one_sentence s ∧ 9 ∉ normalize_one_sentence s ∧
    10 ∉ normalize_one_sentence s ∧
    ¬ [32, 32] <:+: normalize_one_sentence s := by
  refine ⟨fun h => (mem_normalize s 13 h).1 rfl,
    fun h => (mem_normalize s 9 h).2.1 rfl,
    fun h => (mem_normalize s 10 h).2.2 rfl, ?_⟩
  intro hinf
  have hch : List.Chain' (fun x y => ¬(x = 32 ∧ y = 32))
      (normalize_one_sentence s) := by
    rw [normalize_eq]
    exact collapseGo_chain _ false
  have h2 := List.Chain'.infix hch hinf
  rw [List.chain'_cons] at h2
  exact h2.1 ⟨rfl, rfl⟩

/-- C7: normalization never expands the text: the output length is at
most the input length. -/
theorem C7_normalize_length_le (s : List Nat) :
    (normalize_one_sentence s).length ≤ s.length := by
  have h1 := List.Sublist.length_le (normalize_sublist_wsub s)
  rw [List.length_map] at h1
  exact Nat.le_trans h1 (List.length_filter_le _ s)

/-! ## C9: what survives of the prefix invariant -/

theorem wsub_wsub (c : Nat) : wsub (wsub c) = wsub c := by
  rw [wsub, wsub]
  split
  · rfl
  · rfl

theorem wsub_ne_13 (c : Nat) (h : c ≠ 13) : wsub c ≠ 13 := by
  rw [wsub]
  split
  · decide
  · exact h

theorem filter_map_wsub_self (b : List Nat) :
    ((b.filter fun c => !(c == 13)).map wsub).filter (fun c => !(c == 13)) =
      (b.filter fun c => !(c == 13)).map wsub := by
  rw [List.filter_eq_self]
  intro a ha
  obtain ⟨x, hx, hxa⟩ := List.mem_map.mp ha
  have hx13 : x ≠ 13 := by
    have := (List.mem_filter.mp hx).2
    simpa using this
  subst hxa
  simpa using wsub_ne_13 x hx13

theorem map_wsub_map_wsub (l : List Nat) :
    (l.map wsub).map wsub = l.map wsub := by
  rw [List.map_map]
  exact List.map_congr_left fun a _ => wsub_wsub a

theorem normalize_sublist_of_sublist (b m : List Nat)
    (hm : m.Sublist ((b.filter fun c => !(c == 13)).map wsub)) :
    (normalize_one_sentence m).Sublist
      ((b.filter fun c => !(c == 13)).map wsub) := by
  have h1 := normalize_sublist_wsub m
  have h2 : (m.filter fun c => !(c == 13)).Sublist
      ((b.filter fun c => !(c == 13)).map wsub) := by
    have h3 := List.Sublist.filter (fun c => !(c == 13)) hm
    rwa [filter_map_wsub_self] at h3
  have h4 : ((m.filter fun c => !(c == 13)).map wsub).Sublist
      ((b.filter fun c => !(c == 13)).map wsub) := by
    have h5 := List.Sublist.map wsub h2
    rwa [map_wsub_map_wsub] at h5
  exact List.Sublist.trans h1 h4

theorem anchor_repair_none (out : List Nat)
    (h : findSub out lr0_key = none) : anchor_repair out = out := by
  rw [anchor_repair, h]

theorem anchor_repair_some (out : List Nat) (p : Nat)
    (h : findSub out lr0_key = some p) :
    anchor_repair out =
      if 0 < p then normalize_one_sentence (out.drop p) else out := by
  rw [anchor_repair, h]

theorem trim_sublist (s : List Nat) (stops : List (List Nat)) :
    (trim_at_stop_first_occurrence s stops).Sublist s := by
  rw [trim_at_stop_first_occurrence]
  cases stopCut s stops with
  | none => exact List.Sublist.refl s
  | some c => exact List.take_sublist c s

/-- C9 amended: the final output need not be a prefix of the frozen
buffer, but it is a sublist (ordered selection) of the buffer after the
whitespace substitution the normalizer performs: carriage returns
removed and tab/newline bytes replaced by a space. -/
theorem C9_amended_output_sublist (b : List Nat) (stops : List (List Nat)) :
    (postProcess b stops).Sublist ((b.filter fun c => !(c == 13)).map wsub) := by
  rw [postProcess]
  have htrim : ((trim_at_stop_first_occurrence b stops).filter
      fun c => !(c == 13)).Sublist (b.filter fun c => !(c == 13)) :=
    List.Sublist.filter _ (trim_sublist b stops)
  have hnorm : (normalize_one_sentence
      (trim_at_stop_first_occurrence b stops)).Sublist
      ((b.filter fun c => !(c == 13)).map wsub) :=
    List.Sublist.trans (normalize_sublist_wsub _) (List.Sublist.map wsub htrim)
  cases hf : findSub (normalize_one_sentence
      (trim_at_stop_first_occurrence b stops)) lr0_key with
  | none =>
    rw [anchor_repair_none _ hf]
    exact hnorm
  | some p =>
    rw [anchor_repair_some _ p hf]
    by_cases hp : 0 < p
    · rw [if_pos hp]
      refine normalize_sublist_of_sublist b _ ?_
      exact List.Sublist.trans (List.drop_sublist p _) hnorm
    · rw [if_neg hp]
      exact hnorm

/-- C9 counterexample: the frozen buffer `"a  b"` (reachable: engine
`engineBad` freezes exactly this buffer) post-processes to `"a b"`,
which is not a prefix of the buffer. -/
theorem C9_counterexample :
    (genLoopRun engineBad default_stops 5).1 = [97, 32, 32, 98] ∧
    postProcess [97, 32, 32, 98] default_stops = [97, 32, 98] ∧
    ¬ ([97, 32, 98] <+: [97, 32, 32, 98]) := by
  refine ⟨rfl, rfl, ?_⟩
  decide

/-! ## C1: behavior of the loop on decode errors -/

/-- C1 counterexample: a run in which the engine fails to produce a
fragment (`llama_token_to_piece` returns a non-positive size on the
second iteration).  The loop halts, but the trimmer and normalizer
still run (the surfaced string is the normalized buffer, not the frozen
buffer), and the surfaced result — exit code and output — is identical
to that of a clean end-of-sequence run. -/
theorem C1_counterexample :
    (genLoopRun engineBad default_stops 5).2 = StopKind.decodeErr ∧
    (genLoopRun engineBad default_stops 5).1 = [97, 32, 32, 98] ∧
    mainResult engineBad default_stops 5 = (0, [97, 32, 98]) ∧
    (genLoopRun engineClean default_stops 5).2 = StopKind.eosStop ∧
    mainResult engineBad default_stops 5 =
      mainResult engineClean default_stops 5 :=
  ⟨rfl, rfl, rfl, rfl, rfl⟩

/-- C1 amended: when the engine fails to produce a fragment, the
generation loop halts immediately, but the stop-point trimmer, the
sentence normalizer and the anchor repair still run on the partial
buffer, and the outcome is surfaced exactly like a clean stop: exit
code 0 together with the post-processed partial string. -/
theorem C1_amended_decode_error_still_postprocessed (eng : Nat → EngineStep)
    (stops : List (List Nat)) (n : Int)
    (h : (genLoopRun eng stops n).2 = StopKind.decodeErr) :
    mainResult eng stops n =
      (0, anchor_repair (normalize_one_sentence
        (trim_at_stop_first_occurrence (genLoopRun eng stops n).1 stops))) :=
  rfl

/-- Witness for C1 amended at the concrete failing run. -/
theorem C1_amended_decode_error_still_postprocessed_witness :
    mainResult engineBad default_stops 5 =
      (0, anchor_repair (normalize_one_sentence
        (trim_at_stop_first_occurrence
          (genLoopRun engineBad default_stops 5).1 default_stops))) :=
  C1_amended_decode_error_still_postprocessed engineBad default_stops 5 rfl

/-! ## C8: non-positive generation budget -/

/-- C8 counterexample: at `max_tokens = 0` no configuration error is
detected and the request is not rejected: the generation loop runs
zero iterations and the program completes the request through the
normal path, surfacing success exit code 0 together with an (empty)
output string — the same shape as a normal completed run. -/
theorem C8_counterexample :
    mainRun engineLoops default_stops 0 = some (0, []) ∧
    (genLoopRun engineLoops default_stops 0).2 = StopKind.budget ∧
    mainRun engineClean default_stops 5 = some (0, [97, 32, 98]) :=
  ⟨rfl, rfl, rfl⟩

/-- C8 amended: a request with `max_tokens <= 0` is never detected as
a configuration error.  With `max_tokens = 0` the generation loop runs
zero iterations and the request completes through the normal path,
surfacing the post-processed empty buffer with exit code 0.  With
`max_tokens < 0` the pre-loop `out.reserve((size_t)n_predict * 6)` of
line 1470 wraps and throws an uncaught `std::length_error`, aborting
the process before the loop — a crash, not a designed rejection. -/
theorem C8_amended_zero_completes_negative_aborts (eng : Nat → EngineStep)
    (stops : List (List Nat)) (n : Int) (h : n ≤ 0) :
    (n = 0 → mainRun eng stops n = some (0, postProcess [] stops) ∧
      genLoopRun eng stops n = ([], StopKind.budget)) ∧
    (n < 0 → mainRun eng stops n = none) := by
  constructor
  · intro h0
    subst h0
    exact ⟨rfl, rfl⟩
  · intro hneg
    have ht : reserve_throws n = true := by
      rw [reserve_throws]
      exact decide_eq_true hneg
    rw [mainRun, ht]
    rfl

/-- Witness for C8 amended at `max_tokens = 0` and `max_tokens = -1`. -/
theorem C8_amended_zero_completes_negative_aborts_witness :
    (mainRun engineLoops default_stops 0 =
        some (0, postProcess [] default_stops) ∧
      genLoopRun engineLoops default_stops 0 = ([], StopKind.budget)) ∧
    mainRun engineLoops default_stops (-1) = none := by
  refine ⟨(C8_amended_zero_completes_negative_aborts engineLoops
    default_stops 0 (by decide)).1 rfl, ?_⟩
  exact (C8_amended_zero_completes_negative_aborts engineLoops
    default_stops (-1) (by decide)).2 (by decide)

/-! ## C2: the anchor-repair example -/

/-- C2 counterexample: on the spec's example input the implemented
pipeline (trim with the implemented stop set, then normalization, then
anchor repair) does not produce the claimed string: the trim stage cuts
at the first `。` — a configured stop literal — leaving `嗯，好的`,
in which the anchor `LR(0)` never occurs. -/
theorem C2_counterexample :
    postProcess zhInputC2 default_stops ≠ zhClaimedC2 := by
  decide

/-- C2 amended: on the spec's example input the implemented pipeline
produces `嗯，好的`: the stop-set trim truncates at the first `。`
(a stop literal), normalization leaves the remainder unchanged, and the
anchor repair never fires because the anchor is no longer present. -/
theorem C2_amended_pipeline_output :
    postProcess zhInputC2 default_stops = zhActualC2 :=
  rfl

/-! ## C10: the sentence normalizer is idempotent

The proof shows the normalizer's output is a fixed point: it has no
carriage return, tab or newline, no space runs, no surrounding
whitespace, and every terminal punctuation mark it still contains ends
exactly at its end, so a second pass changes nothing. -/

theorem optMin_eq_none (a b : Option Nat) :
    optMin a b = none ↔ a = none ∧ b = none := by
  cases a <;> cases b <;> simp [optMin]

theorem optMin_le (a b : Option Nat) (c : Nat) (h : optMin a b = some c) :
    (∀ x, a = some x → c ≤ x) ∧ ∀ y, b = some y → c ≤ y := by
  cases a with
  | none =>
    constructor
    · intro x hx
      cases hx
    · intro y hy
      have hbc : b = some c := h
      rw [hbc] at hy
      cases hy
      exact Nat.le_refl c
  | some v =>
    cases b with
    | none =>
      rw [optMin_none_right] at h
      cases h
      refine ⟨fun x hx => ?_, fun y hy => by cases hy⟩
      cases hx
      exact Nat.le_refl _
    | some w =>
      have hc : c = min v w := by simpa [optMin] using h.symm
      subst hc
      refine ⟨fun x hx => ?_, fun y hy => ?_⟩
      · cases hx
        exact Nat.min_le_left _ _
      · cases hy
        exact Nat.min_le_right _ _

theorem optMin_bound (a b : Option Nat) (N : Nat)
    (ha : ∀ x, a = some x → x ≤ N) (hb : ∀ y, b = some y → y ≤ N) :
    ∀ c, optMin a b = some c → c ≤ N := by
  intro c h
  cases a with
  | none => exact hb c h
  | some v =>
    cases b with
    | none =>
      rw [optMin_none_right] at h
      cases h
      exact ha _ rfl
    | some w =>
      have hc : c = min v w := by simpa [optMin] using h.symm
      subst hc
      exact Nat.le_trans (Nat.min_le_left v w) (ha v rfl)

theorem ofoldMin_const (f : α → Option Nat) (l : List α) (v : Nat)
    (h : ∀ a ∈ l, f a = none ∨ f a = some v) :
    ofoldMin f l = none ∨ ofoldMin f l = some v := by
  induction l with
  | nil => exact Or.inl rfl
  | cons a l ih =>
    rw [ofoldMin]
    rcases h a (List.mem_cons_self a l) with ha | ha <;>
      rcases ih (fun x hx => h x (List.mem_cons_of_mem a hx)) with hl | hl <;>
      rw [ha, hl]
    · exact Or.inl rfl
    · exact Or.inr rfl
    · exact Or.inr (optMin_none_right _)
    · exact Or.inr (by simp [optMin])

theorem marksFold_eq (s : List Nat) :
    marksFold s = ofoldMin (markOcc s) sentence_end_marks := by
  have hstep : (fun (best : Option Nat) (e : List Nat) =>
      match findSub s e with
      | none => best
      | some p => optMin best (some (p + e.length))) =
      fun best e => optMin best (markOcc s e) := by
    funext best e
    rw [markOcc]
    cases findSub s e with
    | none => exact (optMin_none_right best).symm
    | some p => rfl
  rw [marksFold, hstep, foldl_optMin_eq]
  rfl

theorem ffse_eq (s : List Nat) :
    find_first_sentence_end_zh s =
      optMin (ofoldMin (markOcc s) sentence_end_marks) (findSub s [10]) := by
  rw [find_first_sentence_end_zh]
  cases findSub s [10] with
  | none => rw [optMin_none_right, marksFold_eq]
  | some nl => rw [marksFold_eq]

theorem markOcc_some (s e : List Nat) (v : Nat) (h : markOcc s e = some v) :
    ∃ p, findSub s e = some p ∧ v = p + e.length := by
  rw [markOcc] at h
  cases hp : findSub s e with
  | none => rw [hp] at h; cases h
  | some p =>
    rw [hp] at h
    simp only [Option.map_some', Option.some.injEq] at h
    exact ⟨p, rfl, h.symm⟩

theorem ffse_le_length (s : List Nat) (cut : Nat)
    (h : find_first_sentence_end_zh s = some cut) : cut ≤ s.length := by
  rw [ffse_eq] at h
  refine optMin_bound _ _ s.length ?_ ?_ cut h
  · intro x hx
    obtain ⟨⟨e, he, hocc⟩, _⟩ := ofoldMin_some _ _ _ hx
    obtain ⟨p, hp, hv⟩ := markOcc_some s e x hocc
    rw [hv]
    exact findSub_add_length_le s e p hp
  · intro y hy
    exact findSub_le_length s [10] y hy

theorem ffse_min (s : List Nat) (cut : Nat)
    (h : find_first_sentence_end_zh s = some cut) :
    (∀ e ∈ sentence_end_marks, ∀ p, findSub s e = some p →
      cut ≤ p + e.length) ∧
    ∀ q, findSub s [10] = some q → cut ≤ q := by
  rw [ffse_eq] at h
  obtain ⟨h1, h2⟩ := optMin_le _ _ _ h
  refine ⟨?_, h2⟩
  intro e he p hp
  have hocc : markOcc s e = some (p + e.length) := by
    rw [markOcc, hp]
    rfl
  cases hbest : ofoldMin (markOcc s) sentence_end_marks with
  | none =>
    rw [(ofoldMin_none_iff _ _).mp hbest e he] at hocc
    cases hocc
  | some w =>
    exact Nat.le_trans (h1 w hbest)
      ((ofoldMin_some _ _ _ hbest).2 e he _ hocc)

theorem ffse_none (s : List Nat) (h : find_first_sentence_end_zh s = none) :
    (∀ e ∈ sentence_end_marks, findSub s e = none) ∧
      findSub s [10] = none := by
  rw [ffse_eq] at h
  obtain ⟨hb, hn⟩ := (optMin_eq_none _ _).mp h
  refine ⟨?_, hn⟩
  intro e he
  have := (ofoldMin_none_iff _ _).mp hb e he
  rw [markOcc] at this
  exact Option.map_eq_none'.mp this

theorem mark_facts (e : List Nat) (he : e ∈ sentence_end_marks) :
    e.length = 3 ∧ ∀ b ∈ e, b ≠ 32 := by
  have he2 : e = [227, 128, 130] ∨ e = [239, 188, 129] ∨
      e = [239, 188, 159] := by
    simpa [sentence_end_marks] using he
  rcases he2 with rfl | rfl | rfl <;> exact ⟨rfl, by decide⟩

/-! ### Infix bookkeeping helpers -/

theorem infix_iff_drop (l₁ l₂ : List Nat) :
    l₁ <:+: l₂ ↔ ∃ i, l₁ <+: l₂.drop i := by
  constructor
  · rintro ⟨u, v, rfl⟩
    refine ⟨u.length, ?_⟩
    rw [List.append_assoc, List.drop_left]
    exact List.prefix_append l₁ v
  · rintro ⟨i, w, hw⟩
    exact ⟨l₂.take i, w, by rw [List.append_assoc, hw, List.take_append_drop]⟩

theorem infix_of_infix_dropLast (e l : List Nat) (h : e <:+: l.dropLast) :
    e <:+: l :=
  List.IsInfix.trans h (List.IsPrefix.isInfix (List.dropLast_prefix l))

theorem infix_cons_ext (e L : List Nat) (c : Nat) (h : e <:+: L) :
    e <:+: c :: L := by
  obtain ⟨u, v, rfl⟩ := h
  exact ⟨c :: u, v, rfl⟩

theorem infix_append_left_ext (e L : List Nat) (u : List Nat) (h : e <:+: L) :
    e <:+: u ++ L := by
  obtain ⟨w, v, rfl⟩ := h
  exact ⟨u ++ w, v, by simp [List.append_assoc]⟩

theorem infix_append_right_ext (e L X : List Nat) (h : e <:+: L) :
    e <:+: L ++ X := by
  obtain ⟨w, z, rfl⟩ := h
  exact ⟨w, z ++ X, by simp [List.append_assoc]⟩

/-- No terminal punctuation mark occurs strictly inside `l`: every
occurrence (if any) runs to the very last byte of `l`. -/
def noMarkInside (l : List Nat) : Prop :=
  ∀ e ∈ sentence_end_marks, ¬ e <:+: l.dropLast

theorem noMarkInside_of_infix (l' l : List Nat) (hsub : l' <:+: l)
    (h : noMarkInside l) : noMarkInside l' := by
  intro e he hinf
  obtain ⟨hm3, _⟩ := mark_facts e he
  have hene : e ≠ [] := by
    intro hnil
    rw [hnil] at hm3
    cases hm3
  obtain ⟨u, v, rfl⟩ := hsub
  cases v with
  | nil =>
    cases hl' : l' with
    | nil =>
      rw [hl'] at hinf
      exact hene (by simpa using hinf)
    | cons a l'' =>
      apply h e he
      have hne : l'.isEmpty = false := by rw [hl']; rfl
      have hd : (u ++ l' ++ []).dropLast = u ++ l'.dropLast := by
        rw [List.append_nil, List.dropLast_append, hne]
        simp
      rw [hd]
      exact infix_append_left_ext e _ u hinf
  | cons c v' =>
    apply h e he
    have hd : (u ++ l' ++ c :: v').dropLast =
        u ++ (l' ++ (c :: v').dropLast) := by
      rw [List.dropLast_append]
      simp [List.append_assoc]
    rw [hd]
    exact infix_append_left_ext e _ u
      (infix_append_right_ext e l' _ (infix_of_infix_dropLast e l' hinf))

theorem noMarkInside_none (s : List Nat)
    (h : find_first_sentence_end_zh s = none) : noMarkInside s := by
  intro e he hinf
  have h2 := infix_of_infix_dropLast e _ hinf
  obtain ⟨i, hp⟩ := (infix_iff_drop e s).mp h2
  obtain ⟨p, hps, _⟩ := findSub_complete s e i hp
  rw [(ffse_none s h).1 e he] at hps
  cases hps

theorem noMarkInside_take_cut (s1 : List Nat) (cut : Nat)
    (h : find_first_sentence_end_zh s1 = some cut) :
    noMarkInside (s1.take cut) := by
  intro e he hinf
  obtain ⟨hm3, _⟩ := mark_facts e he
  have hcle : cut ≤ s1.length := ffse_le_length s1 cut h
  have hd : (s1.take cut).dropLast = s1.take (cut - 1) := by
    rw [List.dropLast_eq_take, List.take_take]
    congr 1
    rw [List.length_take]
    omega
  rw [hd] at hinf
  obtain ⟨i, hp⟩ := (infix_iff_drop e _).mp hinf
  rw [List.drop_take] at hp
  obtain ⟨hps, hlen⟩ := List.prefix_take_iff.mp hp
  obtain ⟨p, hpfind, hpi⟩ := findSub_complete s1 e i hps
  have hmin := (ffse_min s1 cut h).1 e he p hpfind
  omega

/-! ### Occurrence transfer through substitution and collapsing -/

theorem wsub_eq_of_ne_32 (c b : Nat) (hb : b ≠ 32) (h : wsub c = b) :
    c = b := by
  rw [wsub] at h
  split at h
  · exact absurd h.symm hb
  · exact h

theorem map_wsub_pre_rev (e : List Nat) (m : List Nat)
    (hno : ∀ b ∈ e, b ≠ 32) (h : e <+: m.map wsub) : e <+: m := by
  induction e generalizing m with
  | nil => exact List.nil_prefix
  | cons b e' ih =>
    cases m with
    | nil =>
      obtain ⟨t, ht⟩ := h
      cases ht
    | cons c m' =>
      rw [List.map_cons, List.cons_prefix_cons] at h
      obtain ⟨hb, h'⟩ := h
      have hc : c = b :=
        wsub_eq_of_ne_32 c b (hno b (List.mem_cons_self b e')) hb.symm
      rw [List.cons_prefix_cons]
      exact ⟨hc.symm, ih m' (fun x hx => hno x (List.mem_cons_of_mem b hx)) h'⟩

theorem map_wsub_infix_rev (e m : List Nat) (hno : ∀ b ∈ e, b ≠ 32)
    (h : e <:+: m.map wsub) : e <:+: m := by
  obtain ⟨i, hp⟩ := (infix_iff_drop _ _).mp h
  rw [← List.map_drop] at hp
  exact (infix_iff_drop _ _).mpr ⟨i, map_wsub_pre_rev e _ hno hp⟩

theorem noMarkInside_map (m : List Nat) (h : noMarkInside m) :
    noMarkInside (m.map wsub) := by
  intro e he hinf
  obtain ⟨_, hno⟩ := mark_facts e he
  rw [← List.map_dropLast] at hinf
  exact h e he (map_wsub_infix_rev e m.dropLast hno hinf)

theorem collapseGo_pre_rev (m : List Nat) (e : List Nat)
    (hno : ∀ x ∈ e, x ≠ 32) (h : e <+: collapseGo false m) : e <+: m := by
  induction m generalizing e with
  | nil =>
    have he : e = [] := by
      obtain ⟨t, ht⟩ := h
      exact (List.append_eq_nil.mp ht).1
    rw [he]
  | cons c m' ih =>
    by_cases hc : c = 32
    · subst hc
      rw [collapseGo_sp_false] at h
      cases e with
      | nil => exact List.nil_prefix
      | cons b e' =>
        rw [List.cons_prefix_cons] at h
        exact absurd h.1 (hno b (List.mem_cons_self b e'))
    · rw [collapseGo_ne false c m' hc] at h
      cases e with
      | nil => exact List.nil_prefix
      | cons b e' =>
        rw [List.cons_prefix_cons] at h
        obtain ⟨hb, h'⟩ := h
        rw [List.cons_prefix_cons]
        exact ⟨hb, ih e' (fun x hx => hno x (List.mem_cons_of_mem b hx)) h'⟩

theorem collapseGo_infix_rev (m : List Nat) (b : Bool) (e : List Nat)
    (hno : ∀ x ∈ e, x ≠ 32) (h : e <:+: collapseGo b m) : e <:+: m := by
  induction m generalizing b with
  | nil =>
    have h0 : e <:+: ([] : List Nat) := h
    obtain ⟨u, v, huv⟩ := h0
    obtain ⟨h1, h2⟩ := List.append_eq_nil.mp huv
    obtain ⟨h3, h4⟩ := List.append_eq_nil.mp h1
    rw [h4]
  | cons c m' ih =>
    by_cases hc : c = 32
    · subst hc
      cases b with
      | true =>
        rw [collapseGo_sp_true] at h
        exact infix_cons_ext e m' 32 (ih true h)
      | false =>
        rw [collapseGo_sp_false] at h
        rw [List.infix_cons_iff] at h
        cases h with
        | inl hp =>
          cases e with
          | nil => exact ⟨[], 32 :: m', rfl⟩
          | cons x e' =>
            rw [List.cons_prefix_cons] at hp
            exact absurd hp.1 (hno x (List.mem_cons_self x e'))
        | inr hinf => exact infix_cons_ext e m' 32 (ih true hinf)
    · rw [collapseGo_ne b c m' hc] at h
      rw [List.infix_cons_iff] at h
      cases h with
      | inl hp =>
        cases e with
        | nil => exact ⟨[], c :: m', rfl⟩
        | cons x e' =>
          rw [List.cons_prefix_cons] at hp
          obtain ⟨hx, hp'⟩ := hp
          have h2 : e' <+: m' := collapseGo_pre_rev m' e'
            (fun y hy => hno y (List.mem_cons_of_mem x hy)) hp'
          subst hx
          exact List.IsPrefix.isInfix (List.cons_prefix_cons.mpr ⟨rfl, h2⟩)
      | inr hinf => exact infix_cons_ext e m' c (ih false hinf)

theorem collapseGo_no32 (v : List Nat) (b : Bool) (h : ∀ x ∈ v, x ≠ 32) :
    collapseGo b v = v := by
  induction v generalizing b with
  | nil => rfl
  | cons c v' ih =>
    have hc : c ≠ 32 := h c (List.mem_cons_self c v')
    rw [collapseGo_ne b c v' hc,
      ih false (fun x hx => h x (List.mem_cons_of_mem c hx))]

theorem collapseGo_append_no32 (u v : List Nat) (b : Bool)
    (h : ∀ x ∈ v, x ≠ 32) :
    collapseGo b (u ++ v) = collapseGo b u ++ v := by
  induction u generalizing b with
  | nil =>
    simp only [List.nil_append]
    rw [collapseGo_no32 v b h]
    rfl
  | cons c u' ih =>
    by_cases hc : c = 32
    · subst hc
      cases b with
      | true =>
        rw [List.cons_append, collapseGo_sp_true, collapseGo_sp_true, ih true]
      | false =>
        rw [List.cons_append, collapseGo_sp_false, collapseGo_sp_false,
          ih true]
        rfl
    · rw [List.cons_append, collapseGo_ne b c _ hc,
        collapseGo_ne b c u' hc, ih false]
      rfl

theorem noMarkInside_collapse (m : List Nat) (h : noMarkInside m) :
    noMarkInside (collapseGo false m) := by
  intro e he hinf
  obtain ⟨hm3, hno⟩ := mark_facts e he
  have hene : e ≠ [] := by
    intro hnil
    rw [hnil] at hm3
    cases hm3
  have h1 : e <:+: collapseGo false m := infix_of_infix_dropLast e _ hinf
  have h2 : e <:+: m := collapseGo_infix_rev m false e hno h1
  obtain ⟨u, v, huv⟩ := h2
  cases v with
  | cons c v' =>
    apply h e he
    rw [← huv]
    have hd : (u ++ e ++ c :: v').dropLast =
        u ++ (e ++ (c :: v').dropLast) := by
      rw [List.dropLast_append]
      simp [List.append_assoc]
    rw [hd]
    exact infix_append_left_ext e _ u
      (infix_append_right_ext e e _ (List.infix_refl e))
  | nil =>
    rw [List.append_nil] at huv
    have hsplit : collapseGo false m = collapseGo false u ++ e := by
      rw [← huv]
      exact collapseGo_append_no32 u e false hno
    have hnod : ∀ x ∈ e.dropLast, x ≠ 32 :=
      fun x hx => hno x (List.mem_of_mem_dropLast hx)
    have hee : e.isEmpty = false := by
      cases e with
      | nil => exact absurd rfl hene
      | cons a e' => rfl
    have hdl : (collapseGo false m).dropLast =
        collapseGo false (m.dropLast) := by
      rw [hsplit]
      have h5 : (collapseGo false u ++ e).dropLast =
          collapseGo false u ++ e.dropLast := by
        rw [List.dropLast_append, hee]
        simp
      rw [h5, ← collapseGo_append_no32 u e.dropLast false hnod, ← huv]
      congr 1
      rw [List.dropLast_append, hee]
      simp
    rw [hdl] at hinf
    exact h e he (collapseGo_infix_rev _ false e hno hinf)

/-! ### The normalizer output is a fixed point -/

theorem is_ws_false_iff (c : Nat) :
    is_ws c = false ↔ c ≠ 32 ∧ c ≠ 9 ∧ c ≠ 10 := by
  simp [is_ws, and_assoc]

theorem dropWhile_ws_eq_self (l : List Nat) (hh : l.head? ≠ some 32)
    (h9 : 9 ∉ l) (h10 : 10 ∉ l) : l.dropWhile is_ws = l := by
  cases l with
  | nil => rfl
  | cons c l' =>
    have hc : is_ws c = false := by
      rw [is_ws_false_iff]
      refine ⟨?_, ?_, ?_⟩
      · intro h
        apply hh
        rw [h]
        rfl
      · intro h
        subst h
        exact h9 (List.mem_cons_self 9 l')
      · intro h
        subst h
        exact h10 (List.mem_cons_self 10 l')
    rw [List.dropWhile_cons, hc]
    simp

theorem stripWs_eq_self (l : List Nat) (hh : l.head? ≠ some 32)
    (hl : l.getLast? ≠ some 32) (h9 : 9 ∉ l) (h10 : 10 ∉ l) :
    stripWs l = l := by
  have hhr : l.reverse.head? ≠ some 32 := by
    rw [List.head?_reverse]
    exact hl
  have h9r : 9 ∉ l.reverse := by
    rw [List.mem_reverse]
    exact h9
  have h10r : 10 ∉ l.reverse := by
    rw [List.mem_reverse]
    exact h10
  rw [stripWs, dropWhile_ws_eq_self l hh h9 h10,
    dropWhile_ws_eq_self l.reverse hhr h9r h10r, List.reverse_reverse]

theorem normalize_fixed (t : List Nat)
    (h13 : 13 ∉ t) (h9 : 9 ∉ t) (h10 : 10 ∉ t)
    (hch : List.Chain' (fun x y => ¬(x = 32 ∧ y = 32)) t)
    (hh : t.head? ≠ some 32) (hl : t.getLast? ≠ some 32)
    (hcut : find_first_sentence_end_zh t = none ∨
      find_first_sentence_end_zh t = some t.length) :
    normalize_one_sentence t = t := by
  have hf : t.filter (fun c => !(c == 13)) = t := by
    rw [List.filter_eq_self]
    intro a ha
    have hne : a ≠ 13 := fun he => h13 (he ▸ ha)
    simpa using hne
  rw [normalize_eq, hf]
  have hc2 : cutAtSentenceEnd t = t := by
    rw [cutAtSentenceEnd]
    rcases hcut with h | h
    · rw [h]
    · rw [h]
      exact List.take_length t
  rw [hc2, stripWs_eq_self t hh hl h9 h10]
  have hm : t.map wsub = t := by
    have hfix : ∀ a ∈ t, wsub a = a := by
      intro a ha
      rw [wsub]
      split
      · rename_i hcond
        exfalso
        have hor : a = 10 ∨ a = 9 := by simpa using hcond
        rcases hor with h | h
        · exact h10 (h ▸ ha)
        · exact h9 (h ▸ ha)
      · rfl
    calc t.map wsub = t.map id := List.map_congr_left fun a ha => hfix a ha
      _ = t := List.map_id t
  rw [hm]
  exact (collapseGo_eq_self t hch).1

theorem collapse_map_head_ne (X : List Nat)
    (h : ∀ c, X.head? = some c → is_ws c = false) :
    (collapseGo false (X.map wsub)).head? ≠ some 32 := by
  rw [collapseGo_false_head?, List.head?_map]
  cases hh : X.head? with
  | none => exact fun he => Option.noConfusion he
  | some c =>
    simp only [Option.map_some']
    intro he
    injection he with he2
    obtain ⟨h32, h9, h10⟩ := (is_ws_false_iff c).mp (h c hh)
    rw [wsub] at he2
    split at he2
    · rename_i hcond
      have hor : c = 10 ∨ c = 9 := by simpa using hcond
      rcases hor with h' | h'
      · exact h10 h'
      · exact h9 h'
    · exact h32 he2

theorem collapse_map_getLast_ne (X : List Nat)
    (h : ∀ c, X.getLast? = some c → is_ws c = false) :
    (collapseGo false (X.map wsub)).getLast? ≠ some 32 := by
  cases hh : X.getLast? with
  | none =>
    have hX : X = [] := List.getLast?_eq_none_iff.mp hh
    subst hX
    exact fun he => Option.noConfusion he
  | some c =>
    obtain ⟨h32, h9, h10⟩ := (is_ws_false_iff c).mp (h c hh)
    have hwc : wsub c = c := by
      rw [wsub]
      split
      · rename_i hcond
        exfalso
        have hor : c = 10 ∨ c = 9 := by simpa using hcond
        rcases hor with h' | h'
        · exact h10 h'
        · exact h9 h'
      · rfl
    have h5 : (X.map wsub).getLast? = some c := by
      rw [List.getLast?_map, hh, Option.map_some', hwc]
    have hne : (X.map wsub).getLast? ≠ some 32 := by
      rw [h5]
      intro he
      injection he with he2
      exact h32 he2
    rw [collapseGo_getLast? _ false hne, h5]
    intro he
    injection he with he2
    exact h32 he2

theorem normalize_noMarkInside (s : List Nat) :
    noMarkInside (normalize_one_sentence s) := by
  rw [normalize_eq]
  apply noMarkInside_collapse
  apply noMarkInside_map
  have h2 : noMarkInside (cutAtSentenceEnd (s.filter fun c => !(c == 13))) := by
    rw [cutAtSentenceEnd]
    cases hc : find_first_sentence_end_zh (s.filter fun c => !(c == 13)) with
    | none => exact noMarkInside_none _ hc
    | some cut => exact noMarkInside_take_cut _ cut hc
  refine noMarkInside_of_infix _ _ ?_ h2
  exact List.IsInfix.trans
    (List.IsPrefix.isInfix (stripWs_pre _))
    (List.IsSuffix.isInfix (List.dropWhile_suffix is_ws))

theorem ffse_fixed (n : List Nat) (h10 : 10 ∉ n) (hq : noMarkInside n) :
    find_first_sentence_end_zh n = none ∨
      find_first_sentence_end_zh n = some n.length := by
  have hnl : findSub n [10] = none := by
    cases hf : findSub n [10] with
    | none => rfl
    | some p =>
      exfalso
      obtain ⟨t, ht⟩ := (findSub_some n [10] p hf).1
      have hmem : 10 ∈ n.drop p := by
        rw [← ht]
        exact List.mem_append_left t (List.mem_singleton_self 10)
      exact h10 (List.mem_of_mem_drop hmem)
  have hmk : ∀ e ∈ sentence_end_marks,
      markOcc n e = none ∨ markOcc n e = some n.length := by
    intro e he
    cases hf : findSub n e with
    | none =>
      left
      rw [markOcc, hf]
      rfl
    | some p =>
      right
      rw [markOcc, hf]
      simp only [Option.map_some', Option.some.injEq]
      obtain ⟨hm3, _⟩ := mark_facts e he
      have hle := findSub_add_length_le n e p hf
      by_contra hne2
      have hlt : p + e.length < n.length := Nat.lt_of_le_of_ne hle hne2
      apply hq e he
      refine (infix_iff_drop _ _).mpr ⟨p, ?_⟩
      rw [List.dropLast_eq_take, List.drop_take, List.prefix_take_iff]
      exact ⟨(findSub_some n e p hf).1, by omega⟩
  rw [ffse_eq, hnl, optMin_none_right]
  exact ofoldMin_const _ _ n.length hmk

/-- C10: the sentence normalizer is idempotent: applying it twice
yields the same result as applying it once. -/
theorem C10_normalize_idempotent (s : List Nat) :
    normalize_one_sentence (normalize_one_sentence s) =
      normalize_one_sentence s := by
  apply normalize_fixed
  · exact fun h => (mem_normalize s 13 h).1 rfl
  · exact fun h => (mem_normalize s 9 h).2.1 rfl
  · exact fun h => (mem_normalize s 10 h).2.2 rfl
  · rw [normalize_eq]
    exact collapseGo_chain _ false
  · rw [normalize_eq]
    exact collapse_map_head_ne _ fun c hc => stripWs_head? _ c hc
  · rw [normalize_eq]
    exact collapse_map_getLast_ne _ fun c hc => stripWs_getLast? _ c hc
  · exact ffse_fixed _ (fun h => (mem_normalize s 10 h).2.2 rfl)
      (normalize_noMarkInside s)

end LlmCli
